import Mathlib

/-!
Verification of the ledger integrity engine and access-control layer of the
medchain repository, shallowly embedded from `src/lib/ledger.ts`.

The persistence layer (`src/lib/db.ts`), the domain types (`src/lib/types.ts`)
and the hash primitive (`src/lib/crypto.ts`) are imported by `ledger.ts` but are
not part of the available sources; they are modelled from the spec (§3 data
model, §6 persistence contract).  The SHA-256 digest is modelled as an opaque
function parameter `h : String → String` — no theorem below relies on any
property of the digest, so every statement holds for the real hash as well.

Effects are made explicit: `crypto.randomUUID()` and `Date.now()` become
explicit arguments, `localStorage`-backed session state becomes an
`Option String` argument, and the IndexedDB store becomes a `DB` value threaded
through each operation.  A thrown `Error` becomes `Except.error (message, db)`
where `db` is the store state at the moment of the throw.
-/

namespace Medchain

/-- Modelled from the spec (§3): `Role` from `src/lib/types.ts` (not under
`src/`); role ∈ \x7bpatient, doctor\x7d. -/
inductive Role
  | patient
  | doctor
deriving DecidableEq, Repr

/-- Modelled from the spec (§3): `Block["payloadType"]` from `src/lib/types.ts`
(not under `src/`); payloadType ∈ \x7bgenesis, report, update, access-granted,
access-revoked\x7d. -/
inductive PayloadType
  | genesis
  | report
  | update
  | accessGranted
  | accessRevoked
deriving DecidableEq, Repr

/-- The string form of a payload type, as it appears in the TypeScript union
(used by `appendBlock` when building the content-digest preimage). -/
def PayloadType.toStr : PayloadType → String
  | .genesis => "genesis"
  | .report => "report"
  | .update => "update"
  | .accessGranted => "access-granted"
  | .accessRevoked => "access-revoked"

/-- Modelled from the spec (§3): `RecordItem["type"]` ∈ \x7breport, update\x7d. -/
inductive RecordType
  | report
  | update
deriving DecidableEq, Repr

/-- Modelled from the spec (§3): `User` from `src/lib/types.ts`. -/
structure User where
  id : String
  name : String
  email : String
  role : Role
  saltHex : String
  passwordHashHex : String
  createdAt : Nat
deriving DecidableEq, Repr

/-- Modelled from the spec (§3): `Permission` — a directed grant edge. -/
structure Permission where
  id : String
  patientId : String
  doctorId : String
  grantedAt : Nat
deriving DecidableEq, Repr

/-- Modelled from the spec (§3): `RecordItem` — a clinical artifact. -/
structure RecordItem where
  id : String
  patientId : String
  authorId : String
  authorName : String
  type : RecordType
  title : String
  fileId : Option String
  createdAt : Nat
deriving DecidableEq, Repr

/-- Modelled from the spec (§3): `Block` — one ledger entry. -/
structure Block where
  id : String
  patientId : String
  index : Nat
  prevHash : String
  hash : String
  timestamp : Nat
  payloadType : PayloadType
  payloadRef : Option String
  authorId : String
  authorName : String
deriving DecidableEq, Repr

/-- Modelled from the spec (§6): the durable store backing
users/permissions/records/blocks (`src/lib/db.ts` is not under `src/`).
Each table is a list in insertion order; list-by-secondary-key projections
preserve that order. -/
structure DB where
  users : List User
  permissions : List Permission
  records : List RecordItem
  blocks : List Block
deriving DecidableEq, Repr

/-- Modelled from the spec (§6): `put` is insert-or-replace keyed by the
primary id. -/
def upsert {α : Type} (key : α → String) (l : List α) (x : α) : List α :=
  if l.any (fun y => key y == key x) then
    l.map (fun y => if key y == key x then x else y)
  else
    l ++ [x]

/-- Modelled from the spec (§6): `putUser` from `src/lib/db.ts`. -/
def putUser (db : DB) (u : User) : DB :=
  { db with users := upsert (fun x => x.id) db.users u }

/-- Modelled from the spec (§6): `getUserById` from `src/lib/db.ts`. -/
def getUserById (db : DB) (uid : String) : Option User :=
  db.users.find? (fun u => u.id == uid)

/-- Modelled from the spec (§6): `putPermission` from `src/lib/db.ts`. -/
def putPermission (db : DB) (p : Permission) : DB :=
  { db with permissions := upsert (fun x => x.id) db.permissions p }

/-- Modelled from the spec (§6): `deletePermission` from `src/lib/db.ts` —
delete-by-composite-key (patientId, doctorId). -/
def deletePermission (db : DB) (patientId doctorId : String) : DB :=
  { db with permissions :=
      db.permissions.filter (fun p => !(p.patientId == patientId && p.doctorId == doctorId)) }

/-- Modelled from the spec (§6): `listPermissionsForDoctor` from `src/lib/db.ts`. -/
def listPermissionsForDoctor (db : DB) (doctorId : String) : List Permission :=
  db.permissions.filter (fun p => p.doctorId == doctorId)

/-- Modelled from the spec (§6): `listPermissionsForPatient` from `src/lib/db.ts`. -/
def listPermissionsForPatient (db : DB) (patientId : String) : List Permission :=
  db.permissions.filter (fun p => p.patientId == patientId)

/-- Modelled from the spec (§6): `putRecord` from `src/lib/db.ts`. -/
def putRecord (db : DB) (r : RecordItem) : DB :=
  { db with records := upsert (fun x => x.id) db.records r }

/-- Modelled from the spec (§6): `listRecordsByPatient` from `src/lib/db.ts`. -/
def listRecordsByPatient (db : DB) (patientId : String) : List RecordItem :=
  db.records.filter (fun r => r.patientId == patientId)

/-- Modelled from the spec (§6): `putBlock` from `src/lib/db.ts`. -/
def putBlock (db : DB) (b : Block) : DB :=
  { db with blocks := upsert (fun x => x.id) db.blocks b }

/-- Modelled from the spec (§6): `listBlocksByPatient` from `src/lib/db.ts` —
the patient's chain, in insertion order. -/
def listBlocksByPatient (db : DB) (patientId : String) : List Block :=
  db.blocks.filter (fun b => b.patientId == patientId)

/-! ## The Ledger Engine, from `src/lib/ledger.ts` -/

/-- `Math.max(...blocks.map((b) => b.index))` from `appendBlock`
(src/lib/ledger.ts:243); only evaluated on non-empty lists in the source. -/
def maxIndex (blocks : List Block) : Nat :=
  (blocks.map (fun b => b.index)).foldl max 0

/-- The block built by `appendBlock` (src/lib/ledger.ts:242-262) from the loaded
chain `blocks` of the patient.  `h` stands for `sha256HexFromString`
(`src/lib/crypto.ts`, not under `src/`), `uuid` for `crypto.randomUUID()`, `ts`
for `Date.now()`, and `authorName` for the resolved author display name.
In the `none` branch of `find?` the source uses a non-null assertion
(`blocks.find(...)!`); the branch is unreachable because the maximum index is
attained by some block of a non-empty chain (see `maxIndex_attained`). -/
def appendedBlock (h : String → String) (blocks : List Block) (uuid : String)
    (ts : Nat) (patientId : String) (payloadType : PayloadType)
    (payloadRef : Option String) (authorId authorName : String) : Block :=
  let index := if blocks.length = 0 then 0 else maxIndex blocks + 1
  let prevHash :=
    if index = 0 then "GENESIS"
    else
      match blocks.find? (fun b => b.index == index - 1) with
      | some b => b.hash
      | none => ""
  let payloadKey := payloadType.toStr ++ ":" ++ payloadRef.getD ""
  let contentHash := h payloadKey
  let preimage :=
    prevHash ++ "|" ++ contentHash ++ "|" ++ toString ts ++ "|" ++ authorId ++ "|" ++ toString index
  { id := uuid
    patientId := patientId
    index := index
    prevHash := prevHash
    hash := h preimage
    timestamp := ts
    payloadType := payloadType
    payloadRef := payloadRef
    authorId := authorId
    authorName := authorName }

/-- The block `appendBlock` (src/lib/ledger.ts:236-263) constructs against the
store `db`: the chain is loaded via `listBlocksByPatient` and the author name is
resolved via `getUserById`, falling back to `"Unknown"`. -/
def newBlock (h : String → String) (db : DB) (uuid : String) (ts : Nat)
    (patientId : String) (payloadType : PayloadType) (payloadRef : Option String)
    (authorId : String) : Block :=
  appendedBlock h (listBlocksByPatient db patientId) uuid ts patientId payloadType
    payloadRef authorId
    (match getUserById db authorId with
     | some u => u.name
     | none => "Unknown")

/-- `appendBlock` (src/lib/ledger.ts:236-264): build the next block and persist
it via `putBlock`. -/
def appendBlock (h : String → String) (db : DB) (uuid : String) (ts : Nat)
    (patientId : String) (payloadType : PayloadType) (payloadRef : Option String)
    (authorId : String) : DB :=
  putBlock db (newBlock h db uuid ts patientId payloadType payloadRef authorId)

/-- A `{ index, reason }` entry of `verifyChain`'s failure list
(src/lib/ledger.ts:217). -/
structure VerifyFailure where
  index : Nat
  reason : String
deriving DecidableEq, Repr

/-- The `{ ok, failures }` result of `verifyChain` (src/lib/ledger.ts:216). -/
structure VerifyResult where
  ok : Bool
  failures : List VerifyFailure
deriving DecidableEq, Repr

/-- The `i > 0` arm of `verifyChain`'s loop (src/lib/ledger.ts:225-229): each
block is checked against the block one position earlier in the sequence. -/
def verifyLink (prev : Block) : List Block → List VerifyFailure
  | [] => []
  | b :: rest =>
      (if b.prevHash ≠ prev.hash then [⟨b.index, "Prev hash mismatch"⟩] else [])
        ++ verifyLink b rest

/-- The failure list accumulated by `verifyChain`'s loop
(src/lib/ledger.ts:217-230): the genesis check on the first element, then the
linkage checks. -/
def verifyFailures : List Block → List VerifyFailure
  | [] => []
  | b :: rest =>
      (if b.payloadType ≠ PayloadType.genesis ∨ b.prevHash ≠ "GENESIS" then
        [⟨b.index, "Invalid genesis"⟩]
      else [])
        ++ verifyLink b rest

/-- `verifyChain` (src/lib/ledger.ts:216-234). -/
def verifyChain (blocks : List Block) : VerifyResult :=
  let failures := verifyFailures blocks
  { ok := failures.length == 0, failures := failures }

/-- One iteration of `verifyChain`'s loop with every array subscript checked:
`blocks[i]` and `blocks[i - 1]` yield `none` (the JavaScript `undefined`, whose
dereference would throw) when out of bounds.  Mirrors
src/lib/ledger.ts:219-229; `blocks[i - 1]` is only dereferenced in the `i > 0`
arm, exactly as in the source. -/
def verifyStepChecked (blocks : List Block) (i : Nat) : Option (List VerifyFailure) :=
  match blocks[i]? with
  | none => none
  | some b =>
    if i = 0 then
      some (if b.payloadType ≠ PayloadType.genesis ∨ b.prevHash ≠ "GENESIS" then
        [⟨b.index, "Invalid genesis"⟩]
      else [])
    else
      match blocks[i - 1]? with
      | none => none
      | some prev =>
          some (if b.prevHash ≠ prev.hash then [⟨b.index, "Prev hash mismatch"⟩] else [])

/-- The first `n` iterations of the checked loop, accumulating failures in
order; `none` as soon as any subscript dereference would have thrown. -/
def verifyLoopChecked (blocks : List Block) : Nat → Option (List VerifyFailure)
  | 0 => some []
  | n + 1 =>
    match verifyLoopChecked blocks n, verifyStepChecked blocks n with
    | some acc, some fs => some (acc ++ fs)
    | _, _ => none

/-- `verifyChain` with checked subscripts: `none` models a thrown exception. -/
def verifyChainChecked (blocks : List Block) : Option VerifyResult :=
  match verifyLoopChecked blocks blocks.length with
  | none => none
  | some failures => some { ok := failures.length == 0, failures := failures }

/-! ## Permissions and record authoring, from `src/lib/ledger.ts` -/

/-- `grantAccess` (src/lib/ledger.ts:93-102).  `permUuid` and `blockUuid` stand
for the two `crypto.randomUUID()` calls, `now` and `ts` for the two
`Date.now()` calls.  The source consults no session or actor: it
unconditionally stores the permission edge and appends an `access-granted`
block authored by `patientId`. -/
def grantAccess (h : String → String) (db : DB) (permUuid blockUuid : String)
    (now ts : Nat) (patientId doctorId : String) : DB :=
  let perm : Permission :=
    { id := permUuid, patientId := patientId, doctorId := doctorId, grantedAt := now }
  appendBlock h (putPermission db perm) blockUuid ts patientId
    PayloadType.accessGranted (some perm.id) patientId

/-- `revokeAccess` (src/lib/ledger.ts:104-112): delete the edge by composite
key, then append an `access-revoked` block. -/
def revokeAccess (h : String → String) (db : DB) (blockUuid : String) (ts : Nat)
    (patientId doctorId : String) : DB :=
  appendBlock h (deletePermission db patientId doctorId) blockUuid ts patientId
    PayloadType.accessRevoked (some (patientId ++ ":" ++ doctorId)) patientId

/-- `addDoctorUpdate` (src/lib/ledger.ts:164-188).  `sessionId` models the
`localStorage` session key read by `getSessionUserHydrated`
(src/lib/ledger.ts:84-90); the current actor is its user lookup.  Errors carry
the store state at the moment of the throw, so that state changes of failed
calls are statable. -/
def addDoctorUpdate (h : String → String) (db : DB) (sessionId : Option String)
    (recUuid blockUuid : String) (now ts : Nat)
    (doctorId patientId note : String) : Except (String × DB) DB :=
  match sessionId.bind (fun i => getUserById db i) with
  | none => Except.error ("Only the doctor can add updates", db)
  | some me =>
    if me.id = doctorId ∧ me.role = Role.doctor then
      if (listPermissionsForDoctor db doctorId).any (fun p => p.patientId == patientId) then
        let recItem : RecordItem :=
          { id := recUuid
            patientId := patientId
            authorId := me.id
            authorName := me.name
            type := RecordType.update
            title := note.take 120
            fileId := none
            createdAt := now }
        Except.ok (appendBlock h (putRecord db recItem) blockUuid ts patientId
          PayloadType.update (some recItem.id) me.id)
      else
        Except.error ("No access to this patient", db)
    else
      Except.error ("Only the doctor can add updates", db)

/-- Number of stored permission edges for a (patientId, doctorId) pair. -/
def edgeCount (db : DB) (patientId doctorId : String) : Nat :=
  (db.permissions.filter (fun p => p.patientId == patientId && p.doctorId == doctorId)).length

/-- A block with its stored `hash` field overwritten — the tampering considered
by the spec's §8 mutation property. -/
def setHash (b : Block) (x : String) : Block :=
  { b with hash := x }

/-- Chains produced solely by successive calls to the append operation for one
patient, starting from the empty chain: each step extends the chain with
exactly the block `appendBlock` computes from it (src/lib/ledger.ts:242-263). -/
inductive AppendChain (h : String → String) (pid : String) : List Block → Prop
  | nil : AppendChain h pid []
  | snoc (bs : List Block) (uuid : String) (ts : Nat) (pt : PayloadType)
      (ref : Option String) (authorId authorName : String) :
      AppendChain h pid bs →
      AppendChain h pid
        (bs ++ [appendedBlock h bs uuid ts pid pt ref authorId authorName])

/-! ## Helper lemmas -/

/-- Inserting an element whose key is fresh appends it to the table. -/
theorem upsert_fresh {α : Type} (key : α → String) (l : List α) (x : α)
    (hfresh : ∀ y ∈ l, key y ≠ key x) : upsert key l x = l ++ [x] := by
  have hany : l.any (fun y => key y == key x) = false := by
    simp only [List.any_eq_false]
    intro y hy
    simpa using hfresh y hy
  simp [upsert, hany]

/-- The seed of a `max`-fold is a lower bound of the result. -/
theorem le_foldl_max (l : List Nat) (a : Nat) : a ≤ l.foldl max a := by
  induction l generalizing a with
  | nil => exact Nat.le_refl a
  | cons y ys ih => exact Nat.le_trans (Nat.le_max_left a y) (ih (max a y))

/-- Every element of the list is bounded by its `max`-fold. -/
theorem mem_le_foldl_max (l : List Nat) (a : Nat) : ∀ x ∈ l, x ≤ l.foldl max a := by
  induction l generalizing a with
  | nil => simp
  | cons y ys ih =>
    intro x hx
    rcases List.mem_cons.mp hx with rfl | h
    · exact Nat.le_trans (Nat.le_max_right a x) (le_foldl_max ys (max a x))
    · exact ih (max a y) x h

/-- A `max`-fold either returns its seed or an element of the list. -/
theorem foldl_max_mem (l : List Nat) (a : Nat) : l.foldl max a = a ∨ l.foldl max a ∈ l := by
  induction l generalizing a with
  | nil => exact Or.inl rfl
  | cons y ys ih =>
    simp only [List.foldl_cons]
    rcases ih (max a y) with h | h
    · rcases Nat.le_total a y with hy | hy
      · right
        rw [h, Nat.max_eq_right hy]
        exact List.mem_cons_self _ _
      · left
        rw [h, Nat.max_eq_left hy]
    · right
      exact List.mem_cons_of_mem y h

/-- `Math.max(...blocks.map(b => b.index))` is attained by a block of a
non-empty chain; hence the non-null assertion in `appendBlock`
(src/lib/ledger.ts:244) never fires. -/
theorem maxIndex_attained (bs : List Block) (hne : bs ≠ []) :
    ∃ b ∈ bs, b.index = maxIndex bs := by
  unfold maxIndex
  rcases foldl_max_mem (bs.map fun b => b.index) 0 with h | h
  · obtain ⟨c, L, rfl⟩ := List.exists_cons_of_ne_nil hne
    refine ⟨c, List.mem_cons_self _ _, ?_⟩
    have hle : c.index ≤ (List.map (fun b => b.index) (c :: L)).foldl max 0 :=
      mem_le_foldl_max _ 0 c.index (by simp)
    omega
  · rcases List.mem_map.mp h with ⟨b, hb, hidx⟩
    exact ⟨b, hb, hidx⟩

/-- Linkage checking of a chain extended on the right: the extra block is
checked against the last block so far. -/
theorem verifyLink_concat (prev : Block) (xs : List Block) (b : Block) :
    verifyLink prev (xs ++ [b]) =
      verifyLink prev xs ++
        (if b.prevHash ≠ (xs.getLastD prev).hash then [⟨b.index, "Prev hash mismatch"⟩]
         else []) := by
  induction xs generalizing prev with
  | nil => simp [verifyLink]
  | cons y ys ih =>
    simp only [List.cons_append, verifyLink, List.append_eq, ih y, List.getLastD_cons,
      List.append_assoc]

/-- `verifyChain`'s failure list for a chain extended on the right. -/
theorem verifyFailures_concat (a : Block) (xs : List Block) (b : Block) :
    verifyFailures ((a :: xs) ++ [b]) =
      verifyFailures (a :: xs) ++
        (if b.prevHash ≠ (xs.getLastD a).hash then [⟨b.index, "Prev hash mismatch"⟩]
         else []) := by
  simp only [List.cons_append, verifyFailures, verifyLink_concat, List.append_assoc]

/-- Every failure produced by the linkage loop carries the reason
`"Prev hash mismatch"`. -/
theorem verifyLink_reason (prev : Block) (xs : List Block) :
    ∀ f ∈ verifyLink prev xs, f.reason = "Prev hash mismatch" := by
  induction xs generalizing prev with
  | nil => simp [verifyLink]
  | cons y ys ih =>
    intro f hf
    simp only [verifyLink, List.mem_append] at hf
    rcases hf with hf | hf
    · by_cases hc : y.prevHash ≠ prev.hash
      · rw [if_pos hc] at hf
        simp only [List.mem_singleton] at hf
        subst hf
        rfl
      · rw [if_neg hc] at hf
        exact absurd hf (List.not_mem_nil f)
    · exact ih y f hf

/-- An adjacent prev-hash mismatch anywhere in the chain produces a failure
carrying the successor's stored index. -/
theorem verifyLink_adjacent_mismatch (ws : List Block) (prev u c : Block)
    (ys : List Block) (hne : c.prevHash ≠ u.hash) :
    (⟨c.index, "Prev hash mismatch"⟩ : VerifyFailure) ∈
      verifyLink prev (ws ++ u :: c :: ys) := by
  induction ws generalizing prev with
  | nil =>
    simp only [List.nil_append, verifyLink, List.mem_append]
    right
    left
    simp [if_pos hne]
  | cons w ws ih =>
    simp only [List.cons_append, verifyLink, List.mem_append]
    right
    exact ih w

/-- Folding `max` over `0, 1, …, n` yields `n`. -/
theorem foldl_max_range (n : Nat) : (List.range (n + 1)).foldl max 0 = n := by
  induction n with
  | zero => rfl
  | succ m ih =>
    rw [List.range_succ, List.foldl_append, ih]
    simp only [List.foldl_cons, List.foldl_nil]
    exact Nat.max_eq_right (Nat.le_succ m)

/-- In a chain whose i-th element has index i, the stored indices are exactly
`0, 1, …, length − 1`. -/
theorem map_index_eq_range (bs : List Block)
    (hpos : ∀ i (hi : i < bs.length), (bs.get ⟨i, hi⟩).index = i) :
    bs.map (fun b => b.index) = List.range bs.length := by
  apply List.ext_getElem
  · simp
  · intro i h1 h2
    simp only [List.getElem_map, List.getElem_range]
    simpa [List.get_eq_getElem] using hpos i (by simpa using h1)

/-- In a positionally indexed non-empty chain the maximal index is
`length − 1`. -/
theorem maxIndex_of_positional (bs : List Block)
    (hpos : ∀ i (hi : i < bs.length), (bs.get ⟨i, hi⟩).index = i) (hne : bs ≠ []) :
    maxIndex bs = bs.length - 1 := by
  unfold maxIndex
  rw [map_index_eq_range bs hpos]
  obtain ⟨m, hm⟩ : ∃ m, bs.length = m + 1 := by
    have := List.length_pos.mpr hne
    exact ⟨bs.length - 1, by omega⟩
  rw [hm]
  simpa using foldl_max_range m

/-- `getLast` of a cons-cell as a `getLastD`. -/
theorem getLast_cons_getLastD (a : Block) (xs : List Block) :
    (a :: xs).getLast (by simp) = xs.getLastD a := by
  induction xs generalizing a with
  | nil => rfl
  | cons y ys ih =>
    rw [List.getLast_cons (by simp), ih y, List.getLastD_cons]

/-- In a chain whose i-th element has stored index `k + i`, `find?` for the
largest stored index returns the last element — `blocks.find(...)` in
`appendBlock` (src/lib/ledger.ts:244) locates the chain tip. -/
theorem find_index_offset (bs : List Block) (k : Nat)
    (hpos : ∀ i (hi : i < bs.length), (bs.get ⟨i, hi⟩).index = k + i) (hne : bs ≠ []) :
    bs.find? (fun b => b.index == k + bs.length - 1) = some (bs.getLast hne) := by
  induction bs generalizing k with
  | nil => exact absurd rfl hne
  | cons a rest ih =>
    have ha : a.index = k := by simpa using hpos 0 (by simp)
    cases rest with
    | nil =>
      simp [List.find?, ha]
    | cons r rs =>
      rw [List.find?_cons_of_neg _ (by simp only [beq_iff_eq, List.length_cons, ha]; omega),
        List.getLast_cons (by simp)]
      have hpred : (fun (b : Block) => b.index == k + (a :: r :: rs).length - 1) =
          (fun (b : Block) => b.index == (k + 1) + (r :: rs).length - 1) := by
        funext b
        simp only [List.length_cons]
        congr 1
        omega
      rw [hpred]
      exact ih (k + 1)
        (fun i hi => by
          simpa [Nat.add_assoc, Nat.add_comm 1 i] using hpos (i + 1) (by simpa using hi))
        (by simp)

/-- Every chain built solely by the append operation is positionally indexed:
its i-th block carries stored index i (spec §3 invariant (3): gapless,
duplicate-free index sequence). -/
theorem appendChain_get_index (h : String → String) (pid : String) (bs : List Block)
    (hc : AppendChain h pid bs) :
    ∀ i (hi : i < bs.length), (bs.get ⟨i, hi⟩).index = i := by
  induction hc with
  | nil => intro i hi; simp at hi
  | snoc cs uuid ts pt ref aid aname hprev ih =>
    intro i hi
    have hlen : i < cs.length + 1 := by simpa using hi
    rcases Nat.lt_or_ge i cs.length with hlt | hge
    · rw [List.get_eq_getElem, List.getElem_append_left hlt]
      simpa [List.get_eq_getElem] using ih i hlt
    · have hieq : i = cs.length := by omega
      subst hieq
      rw [show (cs ++ [appendedBlock h cs uuid ts pid pt ref aid aname]).get ⟨cs.length, hi⟩ =
          appendedBlock h cs uuid ts pid pt ref aid aname from by
        simp [List.get_eq_getElem, List.getElem_concat_length]]
      by_cases hcs : cs.length = 0
      · simp [appendedBlock, hcs]
      · have hne : cs ≠ [] := by
          intro hnil
          rw [hnil] at hcs
          exact hcs rfl
        simp only [appendedBlock, if_neg hcs]
        rw [maxIndex_of_positional cs ih hne]
        omega

/-- The block appended to a non-empty append-built chain links to the hash of
the chain's last block: `prevHash` of the new block is the tip's hash. -/
theorem appendChain_prevHash (h : String → String) (pid : String) (cs : List Block)
    (hc : AppendChain h pid cs) (hne : cs ≠ []) (uuid : String) (ts : Nat)
    (pt : PayloadType) (ref : Option String) (aid aname : String) :
    (appendedBlock h cs uuid ts pid pt ref aid aname).prevHash = (cs.getLast hne).hash := by
  have hpos := appendChain_get_index h pid cs hc
  have hmax := maxIndex_of_positional cs hpos hne
  have hlen : ¬ cs.length = 0 := by
    simpa [List.length_eq_zero] using hne
  have hidx : (if cs.length = 0 then 0 else maxIndex cs + 1) = 0 + cs.length := by
    rw [if_neg hlen, hmax]
    omega
  simp only [appendedBlock, hidx]
  rw [if_neg (by omega : ¬ 0 + cs.length = 0)]
  rw [find_index_offset cs 0 (fun i hi => by simpa using hpos i hi) hne]

/-- Append-built chains whose first block is a genesis block verify with no
failures. -/
theorem verifyFailures_appendChain (h : String → String) (pid : String) (bs : List Block)
    (hc : AppendChain h pid bs)
    (hg : ∀ b, bs.head? = some b → b.payloadType = PayloadType.genesis) :
    verifyFailures bs = [] := by
  induction hc with
  | nil => rfl
  | snoc cs uuid ts pt ref aid aname hprev ih =>
    cases cs with
    | nil =>
      have hgen : (appendedBlock h [] uuid ts pid pt ref aid aname).payloadType =
          PayloadType.genesis := hg _ rfl
      simp only [List.nil_append, verifyFailures, verifyLink, List.append_nil]
      rw [if_neg]
      push_neg
      refine ⟨by simpa [appendedBlock] using hgen, ?_⟩
      simp [appendedBlock]
    | cons a xs =>
      have hga : ∀ b, (a :: xs).head? = some b → b.payloadType = PayloadType.genesis := by
        intro b hb
        have hba : a = b := by simpa using hb
        subst hba
        exact hg a rfl
      have ihh : verifyFailures (a :: xs) = [] := ih hga
      rw [verifyFailures_concat a xs _, ihh]
      have hph := appendChain_prevHash h pid (a :: xs) hprev (by simp) uuid ts pt ref aid aname
      rw [getLast_cons_getLastD] at hph
      rw [if_neg (by simp [hph])]
      rfl

/-- A checked loop iteration below the length of a prefix ignores what follows
the prefix. -/
theorem verifyStepChecked_append (xs ys : List Block) (i : Nat) (hi : i < xs.length) :
    verifyStepChecked (xs ++ ys) i = verifyStepChecked xs i := by
  unfold verifyStepChecked
  rw [List.getElem?_append_left hi]
  by_cases h0 : i = 0
  · subst h0
    cases hx : xs[0]? <;> simp [hx]
  · rw [List.getElem?_append_left (by omega : i - 1 < xs.length)]

/-- The first `n ≤ length` checked iterations ignore blocks after the first
`n`. -/
theorem verifyLoopChecked_append (xs ys : List Block) :
    ∀ n, n ≤ xs.length → verifyLoopChecked (xs ++ ys) n = verifyLoopChecked xs n := by
  intro n
  induction n with
  | zero => intro _; rfl
  | succ m ih =>
    intro hm
    simp only [verifyLoopChecked]
    rw [ih (by omega), verifyStepChecked_append xs ys m (by omega)]

/-- Checked lookup of the element one position before the end of a cons
cell. -/
theorem getElem?_cons_length (a : Block) (xs : List Block) :
    (a :: xs)[xs.length]? = some (xs.getLastD a) := by
  induction xs generalizing a with
  | nil => rfl
  | cons y ys ih =>
    rw [show (y :: ys).length = ys.length + 1 from rfl, List.getElem?_cons_succ, ih y,
      List.getLastD_cons]

/-- The checked loop, run over the whole sequence, never dereferences an
out-of-bounds subscript and accumulates exactly `verifyFailures`. -/
theorem verifyLoopChecked_full (bs : List Block) :
    verifyLoopChecked bs bs.length = some (verifyFailures bs) := by
  induction bs using List.reverseRecOn with
  | nil => rfl
  | append_singleton xs b ih =>
    rw [show (xs ++ [b]).length = xs.length + 1 by simp]
    simp only [verifyLoopChecked]
    rw [verifyLoopChecked_append xs [b] xs.length le_rfl, ih]
    cases xs with
    | nil =>
      cases hb : (verifyStepChecked [b] 0) <;> simp [verifyStepChecked, verifyFailures, verifyLink]
    | cons a xs2 =>
      have hget1 : ((a :: xs2) ++ [b])[(a :: xs2).length]? = some b := by
        rw [List.getElem?_append_right le_rfl]
        simp
      have hget2 : ((a :: xs2) ++ [b])[(a :: xs2).length - 1]? = some (xs2.getLastD a) := by
        rw [show (a :: xs2).length - 1 = xs2.length from rfl,
          List.getElem?_append_left (by simp : xs2.length < (a :: xs2).length),
          getElem?_cons_length]
      have hstep : verifyStepChecked ((a :: xs2) ++ [b]) (a :: xs2).length =
          some (if b.prevHash ≠ (xs2.getLastD a).hash then
            [⟨b.index, "Prev hash mismatch"⟩] else []) := by
        unfold verifyStepChecked
        simp only [hget1, hget2]
        rw [if_neg (by simp : ¬ (a :: xs2).length = 0)]
      rw [hstep, verifyFailures_concat]

/-- Appending a block with a fresh uuid extends the patient's chain by exactly
the block `appendBlock` constructs. -/
theorem listBlocksByPatient_appendBlock (h : String → String) (db : DB) (uuid : String)
    (ts : Nat) (pid : String) (pt : PayloadType) (ref : Option String) (aid : String)
    (hfresh : ∀ b ∈ db.blocks, b.id ≠ uuid) :
    listBlocksByPatient (appendBlock h db uuid ts pid pt ref aid) pid =
      listBlocksByPatient db pid ++ [newBlock h db uuid ts pid pt ref aid] := by
  have hnid : (newBlock h db uuid ts pid pt ref aid).id = uuid := rfl
  simp only [appendBlock, putBlock, listBlocksByPatient]
  rw [upsert_fresh _ _ _ (fun y hy => by rw [hnid]; exact hfresh y hy)]
  rw [List.filter_append]
  have hpid : (newBlock h db uuid ts pid pt ref aid).patientId = pid := rfl
  simp [hpid]

/-! ## Concrete stores and chains used as witnesses and counterexamples -/

/-- A stand-in digest function; no theorem relies on any property of the
digest, so concrete witnesses may instantiate it freely. -/
def hid : String → String := fun s => s

/-- The empty store. -/
def dbEmpty : DB := ⟨[], [], [], []⟩

/-- A genesis block appended to the empty chain of patient `"p"`, as
`createAccount` does (src/lib/ledger.ts:43-50). -/
def cb0 : Block := appendedBlock hid [] "uuid-0" 0 "p" PayloadType.genesis none "p" "Pat"

/-- A report block appended after `cb0`. -/
def cb1 : Block :=
  appendedBlock hid [cb0] "uuid-1" 1 "p" PayloadType.report (some "rec-1") "p" "Pat"

/-- A block appended to an empty chain with a non-genesis payload type. -/
def cbad : Block := appendedBlock hid [] "uuid-0" 0 "p" PayloadType.report none "p" "Pat"

/-- A first block violating the genesis payload condition whose stored index
is 7 rather than 0. -/
def c6b : Block :=
  { id := "b-0", patientId := "p", index := 7, prevHash := "GENESIS", hash := "h0",
    timestamp := 0, payloadType := PayloadType.report, payloadRef := none,
    authorId := "p", authorName := "Pat" }

/-- A patient account. -/
def uPat : User := ⟨"p1", "Pat", "pat@example.com", Role.patient, "s", "ph", 0⟩

/-- A doctor account. -/
def uDoc : User := ⟨"d1", "Doc", "doc@example.com", Role.doctor, "s", "ph", 0⟩

/-- A store holding the patient `"p1"`, the doctor `"d1"`, the patient's
genesis block and no permission edges. -/
def dbC2 : DB :=
  ⟨[uPat, uDoc], [], [],
    [appendedBlock hid [] "g-1" 0 "p1" PayloadType.genesis none "p1" "Pat"]⟩

/-- `dbC2` with one permission edge patient `"p1"` → doctor `"d1"`. -/
def dbGranted : DB :=
  ⟨[uPat, uDoc], [⟨"edge-1", "p1", "d1", 0⟩], [],
    [appendedBlock hid [] "g-1" 0 "p1" PayloadType.genesis none "p1" "Pat"]⟩

/-! ## Claim C9 -/

/-- C9: verifying the empty block sequence yields `ok = true` with an empty
failure list, and `verifyChain` is total: with every array subscript checked
(`none` modelling a thrown exception) the loop always returns the structured
result, for every input sequence. -/
theorem verifyChain_empty_ok_and_total :
    verifyChain [] = { ok := true, failures := [] } ∧
    ∀ blocks : List Block, verifyChainChecked blocks = some (verifyChain blocks) := by
  refine ⟨rfl, fun blocks => ?_⟩
  unfold verifyChainChecked verifyChain
  rw [verifyLoopChecked_full]

/-! ## Claim C2 -/

/-- C2 (code bug): `grantAccess` consults no session and performs no
authorization check whatsoever — it takes no actor, reads no session state,
and unconditionally stores the permission edge and appends an
`access-granted` block.  Here the store `dbC2` holds a patient `"p1"` and a
doctor `"d1"`; whoever the current actor is (even the doctor, or nobody
logged in), `grantAccess("p1", "d1")` creates the edge and appends a block
instead of failing with `Unauthorized`. -/
theorem grantAccess_ignores_actor :
    (∃ p ∈ (grantAccess hid dbC2 "perm-1" "blk-1" 5 6 "p1" "d1").permissions,
        p.patientId = "p1" ∧ p.doctorId = "d1") ∧
    (listBlocksByPatient (grantAccess hid dbC2 "perm-1" "blk-1" 5 6 "p1" "d1") "p1").length =
      (listBlocksByPatient dbC2 "p1").length + 1 := by
  decide

/-! ## Claim C4 -/

/-- C4 (counterexample): two grants for the same (patient, doctor) pair store
two distinct `Permission` records — each call creates a record under a fresh
primary id, so the "at most one active edge" invariant fails. -/
theorem double_grant_two_edges :
    edgeCount (grantAccess hid (grantAccess hid dbEmpty "perm-a" "blk-a" 0 0 "p" "d")
        "perm-b" "blk-b" 1 1 "p" "d") "p" "d" = 2 ∧
    ((grantAccess hid (grantAccess hid dbEmpty "perm-a" "blk-a" 0 0 "p" "d")
        "perm-b" "blk-b" 1 1 "p" "d").permissions.map (fun p => p.id)) =
      ["perm-a", "perm-b"] := by
  decide

/-- C4 (amended): each grant with a fresh permission id adds one more stored
edge for the pair — repeated grants accumulate distinct records rather than
being deduplicated — while a revoke deletes every stored edge of the pair. -/
theorem grant_adds_edge_revoke_clears (h : String → String) (db : DB)
    (permUuid blockUuid blockUuid2 : String) (now ts ts2 : Nat) (pid did : String)
    (hfresh : ∀ p ∈ db.permissions, p.id ≠ permUuid) :
    edgeCount (grantAccess h db permUuid blockUuid now ts pid did) pid did =
      edgeCount db pid did + 1 ∧
    edgeCount (revokeAccess h db blockUuid2 ts2 pid did) pid did = 0 := by
  constructor
  · have hperm : (grantAccess h db permUuid blockUuid now ts pid did).permissions =
        db.permissions ++ [(⟨permUuid, pid, did, now⟩ : Permission)] := by
      simp only [grantAccess, appendBlock, putBlock, putPermission]
      exact upsert_fresh _ _ _ (fun y hy => hfresh y hy)
    unfold edgeCount
    rw [hperm, List.filter_append]
    simp
  · unfold edgeCount
    have hperm2 : (revokeAccess h db blockUuid2 ts2 pid did).permissions =
        db.permissions.filter (fun p => !(p.patientId == pid && p.doctorId == did)) := by
      simp only [revokeAccess, appendBlock, putBlock, deletePermission]
    rw [hperm2, List.length_eq_zero, List.filter_eq_nil_iff]
    intro p hp
    have := (List.mem_filter.mp hp).2
    simp only [Bool.not_eq_true'] at this
    simp [this]

/-- C4 (amended, witness): concretely, granting on a store with no edge for
the pair raises the edge count from 0 to 1, and revoking clears it. -/
theorem grant_adds_edge_revoke_clears_witness :
    (∀ p ∈ dbC2.permissions, p.id ≠ "perm-1") ∧
    (edgeCount (grantAccess hid dbC2 "perm-1" "blk-1" 5 6 "p1" "d1") "p1" "d1" =
      edgeCount dbC2 "p1" "d1" + 1 ∧
    edgeCount (revokeAccess hid dbC2 "blk-2" 7 "p1" "d1") "p1" "d1" = 0) :=
  ⟨by decide,
    grant_adds_edge_revoke_clears hid dbC2 "perm-1" "blk-1" "blk-2" 5 6 7 "p1" "d1"
      (by decide)⟩

/-! ## Claim C5 -/

/-- C5: the block built by the append operation has index 0 when the loaded
chain is empty and max(existing indices) + 1 otherwise, and its prevHash is
the sentinel `"GENESIS"` at index 0 and otherwise the hash of the stored block
whose index is index − 1. -/
theorem appendBlock_index_prevHash_spec (h : String → String) (db : DB) (uuid : String)
    (ts : Nat) (pid : String) (pt : PayloadType) (ref : Option String) (aid : String) :
    (listBlocksByPatient db pid = [] →
      (newBlock h db uuid ts pid pt ref aid).index = 0 ∧
      (newBlock h db uuid ts pid pt ref aid).prevHash = "GENESIS") ∧
    (listBlocksByPatient db pid ≠ [] →
      (newBlock h db uuid ts pid pt ref aid).index =
        maxIndex (listBlocksByPatient db pid) + 1 ∧
      ∃ b ∈ listBlocksByPatient db pid,
        b.index = (newBlock h db uuid ts pid pt ref aid).index - 1 ∧
        (newBlock h db uuid ts pid pt ref aid).prevHash = b.hash) := by
  constructor
  · intro hnil
    constructor
    · simp [newBlock, appendedBlock, hnil]
    · simp [newBlock, appendedBlock, hnil]
  · intro hne
    have hlen : ¬ (listBlocksByPatient db pid).length = 0 := by
      simpa [List.length_eq_zero] using hne
    have hidx : (newBlock h db uuid ts pid pt ref aid).index =
        maxIndex (listBlocksByPatient db pid) + 1 := by
      simp [newBlock, appendedBlock, hlen]
    refine ⟨hidx, ?_⟩
    obtain ⟨b0, hb0mem, hb0idx⟩ := maxIndex_attained (listBlocksByPatient db pid) hne
    rcases hfind : (listBlocksByPatient db pid).find?
        (fun b => b.index == maxIndex (listBlocksByPatient db pid) + 1 - 1) with _ | bf
    · exfalso
      have hnone := List.find?_eq_none.mp hfind b0 hb0mem
      simp [hb0idx] at hnone
    · have hmem := List.mem_of_find?_eq_some hfind
      have hpred := List.find?_some hfind
      have hbfidx : bf.index = maxIndex (listBlocksByPatient db pid) := by simpa using hpred
      refine ⟨bf, hmem, ?_, ?_⟩
      · rw [hidx, hbfidx]
        omega
      · have hif : (if (listBlocksByPatient db pid).length = 0 then 0
            else maxIndex (listBlocksByPatient db pid) + 1) =
            maxIndex (listBlocksByPatient db pid) + 1 := if_neg hlen
        simp only [newBlock, appendedBlock, hif]
        rw [if_neg (by omega : ¬ maxIndex (listBlocksByPatient db pid) + 1 = 0), hfind]

/-- The store whose chain for patient `"p"` holds exactly the genesis block
`cb0`. -/
def dbC5 : DB := ⟨[], [], [], [cb0]⟩

/-- C5 (witness): appending a report block to the one-block chain of `dbC5`
yields index max + 1 and links to the hash of the block with index 0. -/
theorem appendBlock_index_prevHash_spec_witness :
    listBlocksByPatient dbC5 "p" ≠ [] ∧
    ((newBlock hid dbC5 "u-2" 3 "p" PayloadType.report none "p").index =
      maxIndex (listBlocksByPatient dbC5 "p") + 1 ∧
    ∃ b ∈ listBlocksByPatient dbC5 "p",
      b.index = (newBlock hid dbC5 "u-2" 3 "p" PayloadType.report none "p").index - 1 ∧
      (newBlock hid dbC5 "u-2" 3 "p" PayloadType.report none "p").prevHash = b.hash) :=
  ⟨by decide,
    (appendBlock_index_prevHash_spec hid dbC5 "u-2" 3 "p" PayloadType.report none "p").2
      (by decide)⟩

/-! ## Claim C6 -/

/-- C6 (counterexample): for the one-block sequence `[c6b]` the first block's
payloadType is not genesis, yet no failure is reported at index 0 — the
`"Invalid genesis"` failure carries the block's stored index 7, because
`verifyChain` reports `b.index`, not the position. -/
theorem invalid_genesis_reported_at_stored_index :
    c6b.payloadType ≠ PayloadType.genesis ∧
    (verifyChain [c6b]).failures = [⟨7, "Invalid genesis"⟩] ∧
    ¬ ∃ f ∈ (verifyChain [c6b]).failures, f.index = 0 := by
  decide

/-- C6 (amended): for every non-empty sequence, an `"Invalid genesis"` failure
carrying the first block's stored index is reported iff the first block's
payloadType is not genesis or its prevHash is not `"GENESIS"`; when both
conditions hold no `"Invalid genesis"` failure is reported at all.  (When the
first block's stored index is 0 — as in every chain built by append — this is
the claim as stated.) -/
theorem invalid_genesis_iff_first_block_bad (b : Block) (rest : List Block) :
    ((⟨b.index, "Invalid genesis"⟩ : VerifyFailure) ∈ (verifyChain (b :: rest)).failures ↔
      (b.payloadType ≠ PayloadType.genesis ∨ b.prevHash ≠ "GENESIS")) ∧
    (b.payloadType = PayloadType.genesis ∧ b.prevHash = "GENESIS" →
      ∀ f ∈ (verifyChain (b :: rest)).failures, f.reason ≠ "Invalid genesis") := by
  have hfail : (verifyChain (b :: rest)).failures = verifyFailures (b :: rest) := rfl
  constructor
  · rw [hfail]
    constructor
    · intro hmem
      by_contra hgood
      push_neg at hgood
      obtain ⟨hpt, hph⟩ := hgood
      simp only [verifyFailures, hpt, hph, ne_eq, not_true_eq_false, false_or, or_self,
        if_false, List.nil_append] at hmem
      have hres := verifyLink_reason b rest _ hmem
      simp at hres
    · intro hbad
      simp only [verifyFailures, List.mem_append]
      left
      rw [if_pos hbad]
      simp
  · rw [hfail]
    rintro ⟨hpt, hph⟩ f hf
    simp only [verifyFailures, hpt, hph, ne_eq, not_true_eq_false, false_or, or_self,
      if_false, List.nil_append] at hf
    rw [verifyLink_reason b rest f hf]
    decide

/-- C6 (amended, witness): for `[c6b]` (payloadType report, stored index 7)
the `"Invalid genesis"` failure carrying the first block's stored index is
reported. -/
theorem invalid_genesis_iff_first_block_bad_witness :
    (⟨7, "Invalid genesis"⟩ : VerifyFailure) ∈ (verifyChain [c6b]).failures :=
  (invalid_genesis_iff_first_block_bad c6b []).1.mpr (by decide)

/-! ## Claim C8 -/

/-- C8: `revokeAccess` removes the stored edges of the pair (a silent no-op on
the permission table when none exists) and in either case appends exactly one
`access-revoked` block to the patient's chain. -/
theorem revokeAccess_spec (h : String → String) (db : DB) (blockUuid : String) (ts : Nat)
    (pid did : String) (hbfresh : ∀ b ∈ db.blocks, b.id ≠ blockUuid) :
    (revokeAccess h db blockUuid ts pid did).permissions =
      db.permissions.filter (fun p => !(p.patientId == pid && p.doctorId == did)) ∧
    ((∀ p ∈ db.permissions, ¬(p.patientId = pid ∧ p.doctorId = did)) →
      (revokeAccess h db blockUuid ts pid did).permissions = db.permissions) ∧
    (∃ nb, listBlocksByPatient (revokeAccess h db blockUuid ts pid did) pid =
        listBlocksByPatient db pid ++ [nb] ∧
      nb.payloadType = PayloadType.accessRevoked) := by
  have hperm : (revokeAccess h db blockUuid ts pid did).permissions =
      db.permissions.filter (fun p => !(p.patientId == pid && p.doctorId == did)) := by
    simp only [revokeAccess, appendBlock, putBlock, deletePermission]
  refine ⟨hperm, ?_, ?_⟩
  · intro hnone
    rw [hperm]
    apply List.filter_eq_self.mpr
    intro p hp
    have hno := hnone p hp
    simp only [Bool.not_eq_true', Bool.and_eq_false_iff]
    by_cases h1 : p.patientId = pid
    · refine Or.inr ?_
      have h2 : ¬ p.doctorId = did := fun h2 => hno ⟨h1, h2⟩
      simpa using h2
    · exact Or.inl (by simpa using h1)
  · refine ⟨newBlock h (deletePermission db pid did) blockUuid ts pid
      PayloadType.accessRevoked (some (pid ++ ":" ++ did)) pid, ?_, ?_⟩
    · have hdel : (deletePermission db pid did).blocks = db.blocks := rfl
      have hchain : listBlocksByPatient (deletePermission db pid did) pid =
          listBlocksByPatient db pid := rfl
      have := listBlocksByPatient_appendBlock h (deletePermission db pid did) blockUuid ts
        pid PayloadType.accessRevoked (some (pid ++ ":" ++ did)) pid
        (fun b hb => hbfresh b (by rwa [hdel] at hb))
      rw [hchain] at this
      exact this
    · simp [newBlock, appendedBlock]

/-- C8 (witness): on a store holding the edge (`"p1"`, `"d1"`), revoking
removes it and appends one `access-revoked` block. -/
theorem revokeAccess_spec_witness :
    (∀ b ∈ dbGranted.blocks, b.id ≠ "blk-r") ∧
    ((revokeAccess hid dbGranted "blk-r" 9 "p1" "d1").permissions =
      dbGranted.permissions.filter
        (fun p => !(p.patientId == "p1" && p.doctorId == "d1")) ∧
    ((∀ p ∈ dbGranted.permissions, ¬(p.patientId = "p1" ∧ p.doctorId = "d1")) →
      (revokeAccess hid dbGranted "blk-r" 9 "p1" "d1").permissions =
        dbGranted.permissions) ∧
    (∃ nb, listBlocksByPatient (revokeAccess hid dbGranted "blk-r" 9 "p1" "d1") "p1" =
        listBlocksByPatient dbGranted "p1" ++ [nb] ∧
      nb.payloadType = PayloadType.accessRevoked)) :=
  ⟨by decide, revokeAccess_spec hid dbGranted "blk-r" 9 "p1" "d1" (by decide)⟩

/-! ## Claim C7 -/

/-- C7: called by the doctor themself, `addDoctorUpdate` fails with
`"No access to this patient"` when no permission edge (patientId, doctorId)
exists in the store, and otherwise succeeds, persisting an `update`
`RecordItem` and appending an `update` block to the patient's chain. -/
theorem addDoctorUpdate_permission_gate (h : String → String) (db : DB)
    (uid recUuid blockUuid : String) (now ts : Nat) (doctorId patientId note : String)
    (me : User) (hsess : getUserById db uid = some me) (hme : me.id = doctorId)
    (hrole : me.role = Role.doctor)
    (hrfresh : ∀ r ∈ db.records, r.id ≠ recUuid)
    (hbfresh : ∀ b ∈ db.blocks, b.id ≠ blockUuid) :
    ((¬ ∃ p ∈ db.permissions, p.doctorId = doctorId ∧ p.patientId = patientId) →
      addDoctorUpdate h db (some uid) recUuid blockUuid now ts doctorId patientId note =
        Except.error ("No access to this patient", db)) ∧
    ((∃ p ∈ db.permissions, p.doctorId = doctorId ∧ p.patientId = patientId) →
      ∃ db2, addDoctorUpdate h db (some uid) recUuid blockUuid now ts doctorId patientId
          note = Except.ok db2 ∧
        db2.records = db.records ++
          [(⟨recUuid, patientId, me.id, me.name, RecordType.update, note.take 120, none,
            now⟩ : RecordItem)] ∧
        ∃ nb, listBlocksByPatient db2 patientId = listBlocksByPatient db patientId ++ [nb] ∧
          nb.payloadType = PayloadType.update) := by
  have hbind : (some uid).bind (fun i => getUserById db i) = some me := by simpa using hsess
  have hany : (listPermissionsForDoctor db doctorId).any
        (fun p => p.patientId == patientId) = true ↔
      ∃ p ∈ db.permissions, p.doctorId = doctorId ∧ p.patientId = patientId := by
    simp only [List.any_eq_true, listPermissionsForDoctor, List.mem_filter, beq_iff_eq]
    constructor
    · rintro ⟨p, ⟨hp, hd⟩, hpt⟩
      exact ⟨p, hp, hd, hpt⟩
    · rintro ⟨p, hp, hd, hpt⟩
      exact ⟨p, ⟨hp, hd⟩, hpt⟩
  constructor
  · intro hnex
    have hanyf : ¬ (listPermissionsForDoctor db doctorId).any
        (fun p => p.patientId == patientId) = true := fun ht => hnex (hany.mp ht)
    simp only [addDoctorUpdate, hbind]
    rw [if_pos ⟨hme, hrole⟩, if_neg hanyf]
  · intro hex
    have hanyt := hany.mpr hex
    simp only [addDoctorUpdate, hbind]
    rw [if_pos ⟨hme, hrole⟩, if_pos hanyt]
    refine ⟨_, rfl, ?_, ?_⟩
    · show (appendBlock h (putRecord db _) blockUuid ts patientId PayloadType.update _
        me.id).records = _
      simp only [appendBlock, putBlock, putRecord]
      exact upsert_fresh _ _ _ (fun y hy => hrfresh y hy)
    · refine ⟨newBlock h
        (putRecord db ⟨recUuid, patientId, me.id, me.name, RecordType.update,
          note.take 120, none, now⟩)
        blockUuid ts patientId PayloadType.update (some recUuid) me.id, ?_, ?_⟩
      · have hchain : listBlocksByPatient
            (putRecord db ⟨recUuid, patientId, me.id, me.name, RecordType.update,
              note.take 120, none, now⟩) patientId =
            listBlocksByPatient db patientId := rfl
        have hb := listBlocksByPatient_appendBlock h
          (putRecord db ⟨recUuid, patientId, me.id, me.name, RecordType.update,
            note.take 120, none, now⟩)
          blockUuid ts patientId PayloadType.update (some recUuid) me.id
          (fun b hb => hbfresh b hb)
        rw [hchain] at hb
        exact hb
      · simp [newBlock, appendedBlock]

/-- C7 (witness): on `dbGranted` (edge `"p1"` → `"d1"` present), the doctor's
update succeeds, storing the record and appending an `update` block; the
hypotheses are discharged concretely. -/
theorem addDoctorUpdate_permission_gate_witness :
    (∃ p ∈ dbGranted.permissions, p.doctorId = "d1" ∧ p.patientId = "p1") ∧
    ∃ db2, addDoctorUpdate hid dbGranted (some "d1") "r-1" "b-9" 4 5 "d1" "p1" "checkup" =
        Except.ok db2 ∧
      db2.records = dbGranted.records ++
        [(⟨"r-1", "p1", uDoc.id, uDoc.name, RecordType.update, String.take "checkup" 120,
          none, 4⟩ : RecordItem)] ∧
      ∃ nb, listBlocksByPatient db2 "p1" = listBlocksByPatient dbGranted "p1" ++ [nb] ∧
        nb.payloadType = PayloadType.update :=
  ⟨by decide,
    (addDoctorUpdate_permission_gate hid dbGranted "d1" "r-1" "b-9" 4 5 "d1" "p1"
      "checkup" uDoc (by decide) rfl rfl (by decide) (by decide)).2 (by decide)⟩

/-! ## Claim C10 -/

/-- C10: `addDoctorUpdate` is atomic on failure — whichever check throws
(no current actor, actor not the named doctor, wrong role, or no permission
edge), the store at the moment of the throw has the same records and the same
blocks as before the call: every mutation happens after the last check. -/
theorem addDoctorUpdate_atomic_on_error (h : String → String) (db : DB)
    (sessionId : Option String) (recUuid blockUuid : String) (now ts : Nat)
    (doctorId patientId note : String) (e : String) (db' : DB)
    (herr : addDoctorUpdate h db sessionId recUuid blockUuid now ts doctorId patientId
      note = Except.error (e, db')) :
    db'.records = db.records ∧ db'.blocks = db.blocks := by
  unfold addDoctorUpdate at herr
  split at herr
  · simp only [Except.error.injEq, Prod.mk.injEq] at herr
    obtain ⟨-, h2⟩ := herr
    subst h2
    exact ⟨rfl, rfl⟩
  · split at herr
    · split at herr
      · simp at herr
      · simp only [Except.error.injEq, Prod.mk.injEq] at herr
        obtain ⟨-, h2⟩ := herr
        subst h2
        exact ⟨rfl, rfl⟩
    · simp only [Except.error.injEq, Prod.mk.injEq] at herr
      obtain ⟨-, h2⟩ := herr
      subst h2
      exact ⟨rfl, rfl⟩

/-- C10 (witness): a patient-role actor calling `addDoctorUpdate` fails, and
the store at the throw is unchanged. -/
theorem addDoctorUpdate_atomic_on_error_witness :
    addDoctorUpdate hid dbC2 (some "p1") "r-1" "b-1" 0 0 "p1" "p1" "note" =
      Except.error ("Only the doctor can add updates", dbC2) ∧
    dbC2.records = dbC2.records ∧ dbC2.blocks = dbC2.blocks :=
  ⟨by rfl,
    addDoctorUpdate_atomic_on_error hid dbC2 (some "p1") "r-1" "b-1" 0 0 "p1" "p1" "note"
      "Only the doctor can add updates" dbC2 (by rfl)⟩

/-! ## Claim C1 -/

/-- C1 (counterexample): a one-block chain produced solely by a single append
(payloadType `report`) from the empty chain fails verification with an
`"Invalid genesis"` failure — appends alone do not guarantee `ok = true`
unless the first append carries the genesis payload type. -/
theorem appendChain_not_always_valid :
    AppendChain hid "p" [cbad] ∧
    (verifyChain [cbad]).ok = false ∧ (verifyChain [cbad]).failures ≠ [] :=
  ⟨AppendChain.snoc [] "uuid-0" 0 PayloadType.report none "p" "Pat" AppendChain.nil,
    by decide, by decide⟩

/-- C1 (amended): every chain built solely by successive calls to the append
operation, starting from the empty chain, whose first appended block carries
payloadType genesis (as `createAccount` guarantees), verifies with `ok = true`
and an empty failure list. -/
theorem verifyChain_of_appendChain_genesis (h : String → String) (pid : String)
    (bs : List Block) (hc : AppendChain h pid bs)
    (hg : ∀ b, bs.head? = some b → b.payloadType = PayloadType.genesis) :
    verifyChain bs = { ok := true, failures := [] } := by
  have hf := verifyFailures_appendChain h pid bs hc hg
  simp [verifyChain, hf]

/-- C1 (amended, witness): the two-block chain genesis-then-report built by
two appends verifies cleanly. -/
theorem verifyChain_of_appendChain_genesis_witness :
    verifyChain [cb0, cb1] = { ok := true, failures := [] } :=
  verifyChain_of_appendChain_genesis hid "p" [cb0, cb1]
    (AppendChain.snoc [cb0] "uuid-1" 1 PayloadType.report (some "rec-1") "p" "Pat"
      (AppendChain.snoc [] "uuid-0" 0 PayloadType.genesis none "p" "Pat" AppendChain.nil))
    (by
      intro b hb
      have hba : cb0 = b := by simpa using hb
      subst hba
      rfl)

/-! ## Claim C3 -/

/-- C3 (counterexample): in the valid append-built chain `[cb0, cb1]`,
overwrite the stored hash of the last block: re-verifying still returns
`ok = true` with no failures — in particular no failure at the altered
block's index — because `verifyChain` checks only prev-hash linkage and never
recomputes a block's own hash from its stored fields. -/
theorem tamper_last_hash_undetected :
    setHash cb1 "tampered" ≠ cb1 ∧
    verifyChain [cb0, cb1] = { ok := true, failures := [] } ∧
    verifyChain [cb0, setHash cb1 "tampered"] = { ok := true, failures := [] } := by
  decide

/-- C3 (amended): mutating a stored hash is detected only through linkage:
when the altered block has a successor that was correctly linked to it, a
`"Prev hash mismatch"` failure is reported carrying the successor's index
(index i + 1, not i); and mutating the hash of the final block of any sequence
never changes the verification outcome at all. -/
theorem tamper_hash_detected_at_successor :
    (∀ (xs : List Block) (b c : Block) (ys : List Block) (x : String),
        c.prevHash = b.hash → x ≠ b.hash →
        (⟨c.index, "Prev hash mismatch"⟩ : VerifyFailure) ∈
          (verifyChain (xs ++ setHash b x :: c :: ys)).failures) ∧
    (∀ (ws : List Block) (d : Block) (y : String),
        verifyFailures (ws ++ [setHash d y]) = verifyFailures (ws ++ [d])) := by
  constructor
  · intro xs b c ys x hlink hx
    have hne : c.prevHash ≠ (setHash b x).hash := by
      simp only [setHash]
      rw [hlink]
      exact fun hcontra => hx hcontra.symm
    cases xs with
    | nil =>
      simp only [List.nil_append, verifyChain, verifyFailures]
      apply List.mem_append_right
      simp only [verifyLink]
      rw [if_pos hne]
      exact List.mem_append_left _ (List.mem_singleton_self _)
    | cons a xs2 =>
      simp only [List.cons_append, verifyChain, verifyFailures]
      apply List.mem_append_right
      exact verifyLink_adjacent_mismatch xs2 a (setHash b x) c ys hne
  · intro ws d y
    cases ws with
    | nil => simp [verifyFailures, verifyLink, setHash]
    | cons a ws2 =>
      rw [verifyFailures_concat, verifyFailures_concat]
      rfl

/-- C3 (amended, witness): tampering with the hash of `cb0`, which has the
correctly linked successor `cb1`, yields a `"Prev hash mismatch"` failure at
index 1 — the successor — not at index 0. -/
theorem tamper_hash_detected_at_successor_witness :
    (⟨1, "Prev hash mismatch"⟩ : VerifyFailure) ∈
      (verifyChain [setHash cb0 "tampered", cb1]).failures :=
  tamper_hash_detected_at_successor.1 [] cb0 cb1 [] "tampered" (by decide) (by decide)

end Medchain
